import Mathlib

/-!
Shallow embedding of the beacon-roots-verification repository core:
the SSZ-style Merkle tree engine, the off-chain Go proof verifier, the
on-chain Solidity replay, and the header chunk codec.

Bytes are modelled as `Nat` values (each `< 256` in the source's `[]byte`),
byte strings as `List Nat`, and chunks as 32-element byte lists.
-/

set_option maxRecDepth 100000

namespace Beacon

/-! ### SHA-256 (FIPS 180-4), as used by Go's `crypto/sha256` and the EVM
`sha256` precompile.  Words are `Nat` values reduced modulo `2^32`. -/

def w32 (x : Nat) : Nat := x % 4294967296

def rotr (n x : Nat) : Nat := w32 ((x >>> n) ||| (x <<< (32 - n)))

def bigSigma0 (x : Nat) : Nat := (rotr 2 x) ^^^ (rotr 13 x) ^^^ (rotr 22 x)

def bigSigma1 (x : Nat) : Nat := (rotr 6 x) ^^^ (rotr 11 x) ^^^ (rotr 25 x)

def smallSigma0 (x : Nat) : Nat := (rotr 7 x) ^^^ (rotr 18 x) ^^^ (x >>> 3)

def smallSigma1 (x : Nat) : Nat := (rotr 17 x) ^^^ (rotr 19 x) ^^^ (x >>> 10)

def chFn (x y z : Nat) : Nat := (x &&& y) ^^^ ((x ^^^ 4294967295) &&& z)

def majFn (x y z : Nat) : Nat := (x &&& y) ^^^ (x &&& z) ^^^ (y &&& z)

/-- The 64 SHA-256 round constants (fractional parts of the cube roots of
the first 64 primes), written in decimal. -/
def K256 : List Nat :=
  [1116352408, 1899447441, 3049323471, 3921009573, 961987163, 1508970993,
   2453635748, 2870763221, 3624381080, 310598401, 607225278, 1426881987,
   1925078388, 2162078206, 2614888103, 3248222580, 3835390401, 4022224774,
   264347078, 604807628, 770255983, 1249150122, 1555081692, 1996064986,
   2554220882, 2821834349, 2952996808, 3210313671, 3336571891, 3584528711,
   113926993, 338241895, 666307205, 773529912, 1294757372, 1396182291,
   1695183700, 1986661051, 2177026350, 2456956037, 2730485921, 2820302411,
   3259730800, 3345764771, 3516065817, 3600352804, 4094571909, 275423344,
   430227734, 506948616, 659060556, 883997877, 958139571, 1322822218,
   1537002063, 1747873779, 1955562222, 2024104815, 2227730452, 2361852424,
   2428436474, 2756734187, 3204031479, 3329325298]

/-- The 8 SHA-256 initial hash words, written in decimal. -/
def H256 : List Nat :=
  [1779033703, 3144134277, 1013904242, 2773480762,
   1359893119, 2600822924, 528734635, 1541459225]

/-- Append the FIPS 180-4 padding: a `0x80` byte, zeros, and the 64-bit
big-endian bit length, so that the total length is a multiple of 64. -/
def padMessage (msg : List Nat) : List Nat :=
  msg ++ 128 :: List.replicate ((64 - (msg.length + 9) % 64) % 64) 0
      ++ (List.range 8).map (fun i => ((8 * msg.length) >>> (8 * (7 - i))) % 256)

/-- Split a byte list into 64-byte blocks.  The structural fuel is the list
length, which strictly exceeds the number of 64-byte blocks. -/
def toBlocksAux : Nat → List Nat → List (List Nat)
  | _, [] => []
  | 0, _ => []
  | fuel + 1, b :: rest => ((b :: rest).take 64) :: toBlocksAux fuel ((b :: rest).drop 64)

def toBlocks (bs : List Nat) : List (List Nat) := toBlocksAux bs.length bs

/-- The 16 initial 32-bit big-endian message-schedule words of a block. -/
def blockWords (block : List Nat) : List Nat :=
  (List.range 16).map (fun i =>
    (block.getD (4 * i) 0) <<< 24 + (block.getD (4 * i + 1) 0) <<< 16 +
    (block.getD (4 * i + 2) 0) <<< 8 + block.getD (4 * i + 3) 0)

/-- Extend the message schedule by `n` further words. -/
def scheduleW : Nat → List Nat → List Nat
  | 0, ws => ws
  | n + 1, ws =>
    scheduleW n (ws ++ [w32 (smallSigma1 (ws.getD (ws.length - 2) 0) + ws.getD (ws.length - 7) 0 +
      smallSigma0 (ws.getD (ws.length - 15) 0) + ws.getD (ws.length - 16) 0)])

/-- One round of the SHA-256 compression function on the 8-word state. -/
def compressStep (st : List Nat) (kw : Nat × Nat) : List Nat :=
  match st with
  | [a, b, c, d, e, f, g, h] =>
    let t1 := w32 (h + bigSigma1 e + chFn e f g + kw.1 + kw.2)
    let t2 := w32 (bigSigma0 a + majFn a b c)
    [w32 (t1 + t2), a, b, c, w32 (d + t1), e, f, g]
  | st => st

def processBlock (hs : List Nat) (block : List Nat) : List Nat :=
  let ws := scheduleW 48 (blockWords block)
  let st := (K256.zip ws).foldl compressStep hs
  (hs.zip st).map (fun p => w32 (p.1 + p.2))

/-- SHA-256 of a byte list, as a list of 32 bytes. -/
def sha256 (msg : List Nat) : List Nat :=
  ((toBlocks (padMessage msg)).foldl processBlock H256).map
    (fun w => [(w >>> 24) % 256, (w >>> 16) % 256, (w >>> 8) % 256, w % 256]) |>.flatten

/-! ### Merkle tree engine (`merkle` package, `app.go` lines 271-450) -/

/-- A 32-byte zero chunk, Go's `make([]byte, 32)`. -/
def zeroChunk : List Nat := List.replicate 32 0

/-- Hash pair: `sha256(left ++ right)`, Go's `h.Write(left); h.Write(right); h.Sum(nil)`,
also the contract's `sha256(abi.encodePacked(left, right))`. -/
def hashPair (left right : List Nat) : List Nat := sha256 (left ++ right)

/-- Go `nextPowerOfTwo` from `app.go`: `1` for `n = 0`, else
`1 <<< bits.Len(n-1)`; Go's `bits.Len` is `Nat.size`. -/
def nextPowerOfTwo (n : Nat) : Nat := if n = 0 then 1 else 2 ^ Nat.size (n - 1)

/-- One halving pass of the layer loop shared by `merkleize` and
`ComputeProof`: pair up adjacent nodes, the right one defaulting to a zero
chunk when the layer length is odd, and hash each pair. -/
def hashLayer : List (List Nat) → List (List Nat)
  | [] => []
  | [l] => [hashPair l zeroChunk]
  | l :: r :: rest => hashPair l r :: hashLayer rest

theorem hashLayer_length : ∀ l : List (List Nat), (hashLayer l).length = (l.length + 1) / 2
  | [] => rfl
  | [_] => by simp [hashLayer]
  | _ :: _ :: rest => by simp [hashLayer, hashLayer_length rest]; omega

/-- Pad the chunk list on the right with zero chunks to the next power of
two, as both `merkleize` and `ComputeProof` do. -/
def padToPow2 (chunks : List (List Nat)) : List (List Nat) :=
  chunks ++ List.replicate (nextPowerOfTwo chunks.length - chunks.length) zeroChunk

/-- The `for layerSize > 1` reduction loop of `merkleize`, returning the
single remaining node (`tree[0]`). -/
def merkleizeLayers (layer : List (List Nat)) : List Nat :=
  if 1 < layer.length then merkleizeLayers (hashLayer layer)
  else layer.headD zeroChunk
termination_by layer.length
decreasing_by rw [hashLayer_length]; omega

/-- Go `Tree.merkleize`: the zero chunk for an empty list, otherwise the layer
reduction of the zero-padded chunk list. -/
def merkleize (chunks : List (List Nat)) : List Nat :=
  if chunks.length = 0 then zeroChunk else merkleizeLayers (padToPow2 chunks)

/-- The `merkle.Tree` struct: the original chunks and the computed root. -/
structure Tree where
  chunks : List (List Nat)
  root : List Nat
  deriving DecidableEq

/-- Go `NewTree`: fails unless every chunk is exactly 32 bytes, then stores the
chunks and their `merkleize` root. -/
def newTree (chunks : List (List Nat)) : Option Tree :=
  if chunks.all (fun c => c.length == 32) then some ⟨chunks, merkleize chunks⟩ else none

/-- The sibling-collecting loop of `ComputeProof`: while the layer has more
than one node, append the sibling at `treeIndex ^^^ 1` (a zero chunk when
that position is past the end of the layer), then move to the parent layer
and halve the index. -/
def computeProofAux (layer : List (List Nat)) (treeIndex : Nat) : List (List Nat) :=
  if 1 < layer.length then
    (if treeIndex ^^^ 1 < layer.length then layer.getD (treeIndex ^^^ 1) [] else zeroChunk)
      :: computeProofAux (hashLayer layer) (treeIndex / 2)
  else []
termination_by layer.length
decreasing_by rw [hashLayer_length]; omega

/-- Go `Tree.ComputeProof`: an error when the index is negative or at least the
(unpadded) chunk count, else the sibling path over the padded layers. -/
def Tree.computeProof (t : Tree) (index : Int) : Option (List (List Nat)) :=
  if index < 0 ∨ (t.chunks.length : Int) ≤ index then none
  else some (computeProofAux (padToPow2 t.chunks) index.toNat)

/-- The replay loop of the Go `Tree.VerifyProof`: for the proof element at
position `i`, inspect bit `i` of the index (`(index >> i) & 1`) to decide
the hashing order. -/
def verifyGoAux (index : Nat) (current : List Nat) (i : Nat) : List (List Nat) → List Nat
  | [] => current
  | sibling :: rest =>
    verifyGoAux index
      (if (index >>> i) &&& 1 = 1 then hashPair sibling current else hashPair current sibling)
      (i + 1) rest

/-- Go `Tree.VerifyProof`: replay the siblings from the leaf value and compare
the result against the tree's stored root. -/
def Tree.verifyProof (t : Tree) (index : Nat) (value : List Nat) (proof : List (List Nat)) : Bool :=
  verifyGoAux index value 0 proof == t.root

/-- The loop of the Solidity `verifySSZMerkleProof`: combine according to
`index % 2`, then `index := index / 2`. -/
def solidityReplay (index : Nat) (computedHash : List Nat) : List (List Nat) → List Nat
  | [] => computedHash
  | el :: rest =>
    solidityReplay (index / 2)
      (if index % 2 = 0 then hashPair computedHash el else hashPair el computedHash) rest

/-- Solidity `BeaconHeaderVerifier.verifySSZMerkleProof` from the contract. -/
def verifySSZMerkleProof (root : List Nat) (index : Nat) (leaf : List Nat)
    (proof : List (List Nat)) : Bool :=
  solidityReplay index leaf proof == root

/-! ### Chunk codec (`beacon/header.go`) -/

/-- The raw API response data (`beacon.HeaderData`). -/
structure HeaderData where
  slot : String
  proposerIndex : String
  parentRoot : String
  stateRoot : String
  bodyRoot : String
  blockRoot : String
  timestamp : Int
  deriving DecidableEq

/-- The parsed header (`beacon.BlockHeader`); `slot` and `proposerIndex` are
Go `uint64` values, so always `< 2^64` when produced by the codec. -/
structure BlockHeader where
  slot : Nat
  proposerIndex : Nat
  parentRoot : List Nat
  stateRoot : List Nat
  bodyRoot : List Nat
  deriving DecidableEq

/-- Go's `trimHexPrefix`: drop a leading `0x` if present. -/
def trimHex (s : String) : String :=
  match s.toList with
  | '0' :: 'x' :: rest => String.mk rest
  | _ => s

/-- One hex digit, as accepted by Go's `encoding/hex`. -/
def hexDigit (c : Char) : Option Nat :=
  if '0' ≤ c ∧ c ≤ '9' then some (c.toNat - 48)
  else if 'a' ≤ c ∧ c ≤ 'f' then some (c.toNat - 87)
  else if 'A' ≤ c ∧ c ≤ 'F' then some (c.toNat - 55)
  else none

/-- Go `hex.DecodeString` on the character list: pairs of hex digits become
bytes; an odd length or a non-hex character is an error. -/
def hexDecodeChars : List Char → Option (List Nat)
  | [] => some []
  | [_] => none
  | c1 :: c2 :: rest => do
    let hi ← hexDigit c1
    let lo ← hexDigit c2
    let tail ← hexDecodeChars rest
    pure ((16 * hi + lo) :: tail)

def hexDecode (s : String) : Option (List Nat) := hexDecodeChars s.toList

/-- Go `strconv.ParseUint(s, 10, 64)`: a non-empty all-digit string whose value
fits in 64 bits. -/
def parseUint64 (s : String) : Option Nat :=
  let v := s.toList.foldl (fun acc c => 10 * acc + (c.toNat - 48)) 0
  if s ≠ "" ∧ s.toList.all Char.isDigit ∧ v < 2 ^ 64 then some v else none

/-- Go `BlockHeader.FromAPIResponse`: parse the two decimal fields (an empty
string leaves the zero value) and hex-decode the three roots (an empty
string becomes 32 zero bytes).  Note: the decoded root length is NOT
checked here. -/
def fromAPIResponse (d : HeaderData) : Except String BlockHeader :=
  match (if d.slot = "" then some 0 else parseUint64 d.slot) with
  | none => .error "parsing slot"
  | some slot =>
  match (if d.proposerIndex = "" then some 0 else parseUint64 d.proposerIndex) with
  | none => .error "parsing proposer_index"
  | some pidx =>
  match (if d.parentRoot = "" then some (List.replicate 32 0)
         else hexDecode (trimHex d.parentRoot)) with
  | none => .error "decoding parent_root"
  | some pr =>
  match (if d.stateRoot = "" then some (List.replicate 32 0)
         else hexDecode (trimHex d.stateRoot)) with
  | none => .error "decoding state_root"
  | some sr =>
  match (if d.bodyRoot = "" then some (List.replicate 32 0)
         else hexDecode (trimHex d.bodyRoot)) with
  | none => .error "decoding body_root"
  | some br => .ok ⟨slot, pidx, pr, sr, br⟩

/-- Go `writeUint64LittleEndian` into a fresh 32-byte buffer: the value's 8
little-endian bytes followed by 24 zeros. -/
def uint64LEChunk (val : Nat) : List Nat :=
  (List.range 8).map (fun i => (val >>> (i * 8)) % 256) ++ List.replicate 24 0

/-- Go `BlockHeader.SerializeForMerkleization`: the five chunks in canonical
order. -/
def serializeForMerkleization (b : BlockHeader) : List (List Nat) :=
  [uint64LEChunk b.slot, uint64LEChunk b.proposerIndex, b.parentRoot, b.stateRoot, b.bodyRoot]

/-! ### Proof bundle assembly (`proof/verification.go`) -/

/-- The `FieldNames` map: canonical field name to index. -/
def fieldNames (s : String) : Option Nat :=
  if s = "slot" then some 0
  else if s = "proposer_index" then some 1
  else if s = "parent_root" then some 2
  else if s = "state_root" then some 3
  else if s = "body_root" then some 4
  else none

/-- Lowercase hex digit character for a value below 16. -/
def hexDigitChar (n : Nat) : Char :=
  if n < 10 then Char.ofNat (48 + n) else Char.ofNat (87 + n)

/-- Go `hex.EncodeToString`: two lowercase hex digits per byte. -/
def hexEncode (bs : List Nat) : String :=
  String.mk ((bs.map (fun b => [hexDigitChar (b / 16), hexDigitChar (b % 16)])).flatten)

/-- The `proof.Data` bundle sent to the verifying contract. -/
structure Data where
  beaconTimestamp : Int
  beaconBlockRoot : String
  fieldIndex : Nat
  fieldValue : String
  merkleProof : List String
  deriving DecidableEq

/-- Go `GenerateHeaderProof`: parse the header, resolve the field name, build
the tree over the serialized chunks, compute the proof for the field's
index, and bundle everything as `0x`-prefixed hex strings. -/
def generateHeaderProof (d : HeaderData) (fieldName : String) (nextSlotTimestamp : Int) :
    Except String Data :=
  match fromAPIResponse d with
  | .error e => .error ("error processing header data: " ++ e)
  | .ok header =>
  match fieldNames fieldName with
  | none => .error ("unknown field name: " ++ fieldName)
  | some fieldIndex =>
  let serialized := serializeForMerkleization header
  match newTree serialized with
  | none => .error "error creating Merkle tree"
  | some tree =>
  match tree.computeProof fieldIndex with
  | none => .error "error computing Merkle proof"
  | some merkleProof =>
  let fieldValueBytes :=
    if fieldName = "slot" ∨ fieldName = "proposer_index" then serialized.getD fieldIndex []
    else if fieldName = "parent_root" then header.parentRoot
    else if fieldName = "state_root" then header.stateRoot
    else if fieldName = "body_root" then header.bodyRoot
    else []
  .ok { beaconTimestamp := nextSlotTimestamp,
        beaconBlockRoot := "0x" ++ hexEncode tree.root,
        fieldIndex := fieldIndex,
        fieldValue := "0x" ++ hexEncode fieldValueBytes,
        merkleProof := merkleProof.map (fun node => "0x" ++ hexEncode node) }

/-! ### Helper lemmas -/

theorem newTree_inv {chunks : List (List Nat)} {t : Tree} (h : newTree chunks = some t) :
    t.chunks = chunks ∧ t.root = merkleize chunks := by
  unfold newTree at h
  split at h
  · cases h; exact ⟨rfl, rfl⟩
  · cases h

theorem two_mul_xor_one (j : Nat) : (2 * j) ^^^ 1 = 2 * j + 1 := by
  apply Nat.eq_of_testBit_eq
  intro i
  rw [Nat.testBit_xor]
  cases i with
  | zero =>
    have ha : (2 * j) % 2 = 0 := by omega
    have hb : (2 * j + 1) % 2 = 1 := by omega
    simp [Nat.testBit_zero, ha, hb]
  | succ i =>
    simp only [Nat.testBit_succ]
    have h1 : (2 * j) / 2 = j := by omega
    have h2 : (2 * j + 1) / 2 = j := by omega
    have h3 : (1 : Nat) / 2 = 0 := by omega
    simp [h1, h2, h3]

theorem two_mul_add_one_xor_one (j : Nat) : (2 * j + 1) ^^^ 1 = 2 * j := by
  apply Nat.eq_of_testBit_eq
  intro i
  rw [Nat.testBit_xor]
  cases i with
  | zero =>
    have ha : (2 * j) % 2 = 0 := by omega
    have hb : (2 * j + 1) % 2 = 1 := by omega
    simp [Nat.testBit_zero, ha, hb]
  | succ i =>
    simp only [Nat.testBit_succ]
    have h1 : (2 * j) / 2 = j := by omega
    have h2 : (2 * j + 1) / 2 = j := by omega
    have h3 : (1 : Nat) / 2 = 0 := by omega
    simp [h1, h2, h3]

/-- The parent layer node at position `j` hashes the nodes at `2j` and
`2j + 1`, the right one defaulting to the zero chunk past the end. -/
theorem hashLayer_getD : ∀ (l : List (List Nat)) (j : Nat), 2 * j < l.length →
    (hashLayer l).getD j [] =
      hashPair (l.getD (2 * j) []) (if 2 * j + 1 < l.length then l.getD (2 * j + 1) [] else zeroChunk)
  | [], j, h => by simp at h
  | [a], j, h => by
    have hj : j = 0 := by simp at h; omega
    subst hj
    simp [hashLayer]
  | a :: b :: rest, 0, _ => by simp [hashLayer]
  | a :: b :: rest, j + 1, h => by
    have h' : 2 * j < rest.length := by simp at h; omega
    have hstep : 2 * (j + 1) = 2 * j + 1 + 1 := by omega
    simp only [hashLayer, List.getD_cons_succ, hstep, List.length_cons]
    rw [hashLayer_getD rest j h']
    congr 1
    have : 2 * j + 1 + 1 + 1 < rest.length + 1 + 1 ↔ 2 * j + 1 < rest.length := by omega
    simp [this]

/-- Replaying the siblings collected by `ComputeProof` from the node at
`treeIndex` reproduces the layer reduction's root, for any layer. -/
theorem replay_computeProof (layer : List (List Nat)) (treeIndex : Nat)
    (h : treeIndex < layer.length) :
    solidityReplay treeIndex (layer.getD treeIndex []) (computeProofAux layer treeIndex) =
      merkleizeLayers layer := by
  rw [computeProofAux, merkleizeLayers]
  by_cases h1 : 1 < layer.length
  · simp only [h1, if_true]
    rw [solidityReplay]
    have hnext : treeIndex / 2 < (hashLayer layer).length := by
      rw [hashLayer_length]; omega
    have step : (if treeIndex % 2 = 0 then
          hashPair (layer.getD treeIndex [])
            (if treeIndex ^^^ 1 < layer.length then layer.getD (treeIndex ^^^ 1) [] else zeroChunk)
        else
          hashPair (if treeIndex ^^^ 1 < layer.length then layer.getD (treeIndex ^^^ 1) [] else zeroChunk)
            (layer.getD treeIndex [])) = (hashLayer layer).getD (treeIndex / 2) [] := by
      rcases Nat.even_or_odd treeIndex with he | ho
      · -- even: treeIndex = 2j, sibling at 2j + 1
        obtain ⟨j, hj0⟩ := he
        have hj : treeIndex = 2 * j := by omega
        subst hj
        rw [two_mul_xor_one]
        have hmod : 2 * j % 2 = 0 := by omega
        have hdiv : 2 * j / 2 = j := by omega
        rw [hdiv, hashLayer_getD layer j (by omega)]
        simp [hmod]
      · -- odd: treeIndex = 2j + 1, sibling at 2j
        obtain ⟨j, hj0⟩ := ho
        have hj : treeIndex = 2 * j + 1 := by omega
        subst hj
        rw [two_mul_add_one_xor_one]
        have hmod : ¬((2 * j + 1) % 2 = 0) := by omega
        have hdiv : (2 * j + 1) / 2 = j := by omega
        rw [hdiv, hashLayer_getD layer j (by omega)]
        have hsib : 2 * j < layer.length := by omega
        simp [hmod, hsib, h]
    rw [step, replay_computeProof (hashLayer layer) (treeIndex / 2) hnext]
  · simp only [h1, if_false]
    have hlen : layer.length = 1 := by omega
    have hidx : treeIndex = 0 := by omega
    subst hidx
    rw [solidityReplay]
    match layer, hlen with
    | [a], _ => simp
termination_by layer.length
decreasing_by rw [hashLayer_length]; omega

/-- The Go bit-indexed replay starting at position `i` equals the Solidity
divide-by-two replay on the index shifted right by `i`. -/
theorem goAux_eq_solidity : ∀ (p : List (List Nat)) (index c : _) (i : Nat),
    verifyGoAux index c i p = solidityReplay (index >>> i) c p
  | [], _, _, _ => rfl
  | sibling :: rest, index, c, i => by
    rw [verifyGoAux, solidityReplay]
    rw [goAux_eq_solidity rest index _ (i + 1)]
    rw [Nat.shiftRight_succ]
    by_cases hb : (index >>> i) % 2 = 0
    · have hb1 : ¬((index >>> i) &&& 1 = 1) := by rw [Nat.and_one_is_mod]; omega
      simp [hb, hb1]
    · have hb1 : (index >>> i) &&& 1 = 1 := by rw [Nat.and_one_is_mod]; omega
      simp [hb, hb1]

/-- The Solidity replay only reads the low `proof.length` bits of the index. -/
theorem solidityReplay_congr : ∀ (p : List (List Nat)) (i j : Nat) (c : List Nat),
    i % 2 ^ p.length = j % 2 ^ p.length → solidityReplay i c p = solidityReplay j c p
  | [], _, _, _, _ => rfl
  | el :: rest, i, j, c, h => by
    have hpow : (2 : Nat) ^ (rest.length + 1) = 2 * 2 ^ rest.length := by
      rw [Nat.pow_succ]; omega
    have hdvd : (2 : Nat) ∣ 2 ^ (rest.length + 1) := by
      rw [hpow]; exact Dvd.intro _ rfl
    have hm : i % 2 = j % 2 := by
      rw [← Nat.mod_mod_of_dvd i hdvd, ← Nat.mod_mod_of_dvd j hdvd]
      simp only [List.length_cons] at h
      rw [h]
    have hd : i / 2 % 2 ^ rest.length = j / 2 % 2 ^ rest.length := by
      rw [← Nat.mod_mul_right_div_self i 2 (2 ^ rest.length),
        ← Nat.mod_mul_right_div_self j 2 (2 ^ rest.length), ← hpow]
      simp only [List.length_cons] at h
      rw [h]
    rw [solidityReplay, solidityReplay, hm,
      solidityReplay_congr rest (i / 2) (j / 2) _ hd]

/-- The proof over a layer of `2 ^ k` nodes has exactly `k` siblings. -/
theorem computeProofAux_length_pow : ∀ (k : Nat) (layer : List (List Nat)) (treeIndex : Nat),
    layer.length = 2 ^ k → (computeProofAux layer treeIndex).length = k
  | 0, layer, treeIndex, h => by
    rw [computeProofAux]
    simp [h]
  | k + 1, layer, treeIndex, h => by
    rw [computeProofAux]
    have h1 : 1 < layer.length := by
      rw [h]; exact Nat.one_lt_two_pow (by omega)
    have h2 : (hashLayer layer).length = 2 ^ k := by
      rw [hashLayer_length, h, Nat.pow_succ]; omega
    simp only [h1, if_true, List.length_cons]
    rw [computeProofAux_length_pow k (hashLayer layer) (treeIndex / 2) h2]

theorem le_nextPowerOfTwo (n : Nat) : n ≤ nextPowerOfTwo n := by
  unfold nextPowerOfTwo
  split
  · omega
  · have := Nat.lt_size_self (n - 1)
    omega

theorem padToPow2_length (chunks : List (List Nat)) :
    (padToPow2 chunks).length = nextPowerOfTwo chunks.length := by
  unfold padToPow2
  have := le_nextPowerOfTwo chunks.length
  simp [List.length_append]
  omega

theorem padToPow2_getD {chunks : List (List Nat)} {i : Nat} (h : i < chunks.length) :
    (padToPow2 chunks).getD i [] = chunks.getD i [] := by
  unfold padToPow2
  rw [List.getD_eq_getElem?_getD, List.getD_eq_getElem?_getD,
    List.getElem?_append_left h]

theorem merkleizeLayers_step {layer : List (List Nat)} (h : 1 < layer.length) :
    merkleizeLayers layer = merkleizeLayers (hashLayer layer) := by
  rw [merkleizeLayers, if_pos h]

theorem merkleizeLayers_base {layer : List (List Nat)} (h : ¬1 < layer.length) :
    merkleizeLayers layer = layer.headD zeroChunk := by
  rw [merkleizeLayers, if_neg h]

theorem size_three : Nat.size 3 = 2 := by
  have h1 : Nat.size 3 ≤ 2 := Nat.size_le.2 (by norm_num)
  have h2 : 1 < Nat.size 3 := Nat.lt_size.2 (by norm_num)
  omega

/-- Inversion of a successful `fromAPIResponse`: each field of the result
comes from the corresponding scrutinee. -/
theorem fromAPIResponse_ok_inv {d : HeaderData} {b : BlockHeader}
    (h : fromAPIResponse d = .ok b) :
    (if d.slot = "" then some 0 else parseUint64 d.slot) = some b.slot ∧
    (if d.proposerIndex = "" then some 0 else parseUint64 d.proposerIndex) =
      some b.proposerIndex ∧
    (if d.parentRoot = "" then some (List.replicate 32 0)
      else hexDecode (trimHex d.parentRoot)) = some b.parentRoot ∧
    (if d.stateRoot = "" then some (List.replicate 32 0)
      else hexDecode (trimHex d.stateRoot)) = some b.stateRoot ∧
    (if d.bodyRoot = "" then some (List.replicate 32 0)
      else hexDecode (trimHex d.bodyRoot)) = some b.bodyRoot := by
  unfold fromAPIResponse at h
  split at h
  · exact Except.noConfusion h
  · split at h
    · exact Except.noConfusion h
    · split at h
      · exact Except.noConfusion h
      · split at h
        · exact Except.noConfusion h
        · split at h
          · exact Except.noConfusion h
          · cases h
            refine ⟨?_, ?_, ?_, ?_, ?_⟩ <;> assumption

theorem ifEmpty_some {α : Type} {s : String} {o : Option α} {z : α} (h : s = "" ∨ o.isSome) :
    ∃ v, (if s = "" then some z else o) = some v := by
  by_cases he : s = ""
  · exact ⟨z, if_pos he⟩
  · rcases h with h | h
    · exact absurd h he
    · obtain ⟨v, hv⟩ := Option.isSome_iff_exists.mp h
      exact ⟨v, by rw [if_neg he, hv]⟩

theorem ifEmpty_some_inv {α : Type} {s : String} {o : Option α} {z v : α}
    (h : (if s = "" then some z else o) = some v) : s = "" ∨ o.isSome := by
  by_cases he : s = ""
  · exact Or.inl he
  · rw [if_neg he] at h
    exact Or.inr (h ▸ rfl)

theorem fieldNames_lt {name : String} {idx : Nat} (h : fieldNames name = some idx) :
    idx < 5 := by
  unfold fieldNames at h
  split_ifs at h <;> (cases h; omega)

/-! ### Claim theorems -/

/-- C1: Round-trip correctness: for every chunk list whose elements are all
exactly 32 bytes and every index `i < N`, building the tree with `NewTree`,
computing the proof with `ComputeProof i`, and then calling
`VerifyProof i chunks[i] proof` against the tree's root returns true. -/
theorem C1_round_trip (chunks : List (List Nat)) (t : Tree) (i : Nat) (proof : List (List Nat))
    (hlen : ∀ c ∈ chunks, c.length = 32)
    (ht : newTree chunks = some t)
    (hi : i < chunks.length)
    (hp : t.computeProof (i : Int) = some proof) :
    t.verifyProof i (chunks.getD i []) proof = true := by
  obtain ⟨hc, hr⟩ := newTree_inv ht
  rw [Tree.computeProof, hc] at hp
  rw [if_neg (by omega)] at hp
  have htoNat : ((i : Int)).toNat = i := by omega
  rw [htoNat] at hp
  have hp' : proof = computeProofAux (padToPow2 chunks) i := (Option.some_inj.mp hp).symm
  subst hp'
  rw [Tree.verifyProof, goAux_eq_solidity, Nat.shiftRight_zero]
  have hpad : i < (padToPow2 chunks).length := by
    rw [padToPow2_length]
    have := le_nextPowerOfTwo chunks.length
    omega
  rw [← padToPow2_getD hi, replay_computeProof _ _ hpad, hr, merkleize,
    if_neg (by omega : ¬chunks.length = 0)]
  simp

/-- C1 witness: a concrete two-chunk tree round-trips at index 0. -/
theorem C1_round_trip_witness :
    (⟨[List.replicate 32 1, List.replicate 32 2],
        merkleize [List.replicate 32 1, List.replicate 32 2]⟩ : Tree).verifyProof 0
      ([List.replicate 32 1, List.replicate 32 2].getD 0 [])
      (computeProofAux (padToPow2 [List.replicate 32 1, List.replicate 32 2]) 0) = true :=
  C1_round_trip [List.replicate 32 1, List.replicate 32 2] _ 0 _
    (by decide) (by rfl) (by decide) (by rfl)

/-- C2: Dual-implementation agreement: for every non-negative index, 32-byte
leaf, 32-byte claimed root and list of 32-byte proof elements, the Go
`VerifyProof` replay and the Solidity `verifySSZMerkleProof` replay return
the same boolean. -/
theorem C2_verifiers_agree (t : Tree) (index : Nat) (leaf : List Nat) (proof : List (List Nat))
    (hleaf : leaf.length = 32) (hroot : t.root.length = 32)
    (hproof : ∀ p ∈ proof, p.length = 32) :
    t.verifyProof index leaf proof = verifySSZMerkleProof t.root index leaf proof := by
  rw [Tree.verifyProof, verifySSZMerkleProof, goAux_eq_solidity, Nat.shiftRight_zero]

/-- C2 witness: the two verifiers agree on a concrete input. -/
theorem C2_verifiers_agree_witness :
    (⟨[], List.replicate 32 0⟩ : Tree).verifyProof 0 (List.replicate 32 0) [List.replicate 32 7] =
      verifySSZMerkleProof (List.replicate 32 0) 0 (List.replicate 32 0) [List.replicate 32 7] :=
  C2_verifiers_agree ⟨[], List.replicate 32 0⟩ 0 _ _ (by decide) (by decide) (by decide)

/-- C3: Degenerate roots: `NewTree []` yields the 32-zero-byte root, and
`NewTree [c]` for a 32-byte chunk `c` yields root `c` unmodified. -/
theorem C3_degenerate_roots :
    (∀ t : Tree, newTree [] = some t → t.root = List.replicate 32 0) ∧
    (∀ (c : List Nat) (t : Tree), c.length = 32 → newTree [c] = some t → t.root = c) := by
  constructor
  · intro t ht
    obtain ⟨_, hr⟩ := newTree_inv ht
    rw [hr]
    rfl
  · intro c t hc ht
    obtain ⟨_, hr⟩ := newTree_inv ht
    rw [hr, merkleize, if_neg (by simp), padToPow2]
    have h1 : nextPowerOfTwo [c].length - [c].length = 0 := by
      simp [nextPowerOfTwo, Nat.size_zero]
    rw [h1]
    rw [merkleizeLayers]
    simp

/-- C3 witness: concrete instances of both degenerate cases. -/
theorem C3_degenerate_roots_witness :
    (⟨[], merkleize []⟩ : Tree).root = List.replicate 32 0 ∧
      (⟨[List.replicate 32 9], merkleize [List.replicate 32 9]⟩ : Tree).root =
        List.replicate 32 9 :=
  ⟨C3_degenerate_roots.1 _ (by rfl),
   C3_degenerate_roots.2 (List.replicate 32 9) _ (by decide) (by rfl)⟩

/-- C4: Proof length: for chunk lists of length `N ≥ 1` with 32-byte
elements and a valid index, the proof has length `0` when `N = 1`, and in
general `2 ^ length` is the next power of two above `N` (so the length is
`ceil(log2 P)`). -/
theorem C4_proof_length (chunks : List (List Nat)) (t : Tree) (i : Nat) (proof : List (List Nat))
    (hlen : ∀ c ∈ chunks, c.length = 32)
    (ht : newTree chunks = some t) (hN : 1 ≤ chunks.length) (hi : i < chunks.length)
    (hp : t.computeProof (i : Int) = some proof) :
    2 ^ proof.length = nextPowerOfTwo chunks.length ∧
      (chunks.length = 1 → proof.length = 0) := by
  obtain ⟨hc, _⟩ := newTree_inv ht
  rw [Tree.computeProof, hc, if_neg (by omega)] at hp
  have htoNat : ((i : Int)).toNat = i := by omega
  rw [htoNat] at hp
  have hp' : proof = computeProofAux (padToPow2 chunks) i := (Option.some_inj.mp hp).symm
  subst hp'
  have hlen2 : (padToPow2 chunks).length = 2 ^ Nat.size (chunks.length - 1) := by
    rw [padToPow2_length, nextPowerOfTwo, if_neg (by omega)]
  rw [computeProofAux_length_pow (Nat.size (chunks.length - 1)) _ i hlen2]
  constructor
  · rw [nextPowerOfTwo, if_neg (by omega)]
  · intro h1
    rw [h1]
    simp [Nat.size_eq_zero]

/-- C4 witness: a 5-chunk tree gives proofs of length 3, with `2^3 = 8` the
next power of two above 5. -/
theorem C4_proof_length_witness :
    2 ^ (computeProofAux (padToPow2 (List.replicate 5 zeroChunk)) 2).length =
        nextPowerOfTwo (List.replicate 5 zeroChunk).length ∧
      ((List.replicate 5 zeroChunk).length = 1 →
        (computeProofAux (padToPow2 (List.replicate 5 zeroChunk)) 2).length = 0) :=
  C4_proof_length (List.replicate 5 zeroChunk) _ 2 _
    (by decide) (by rfl) (by decide) (by decide) (by rfl)

/-- C7: Index range errors: for a tree built from `chunks`, `ComputeProof`
returns an error exactly when the index is negative or at least the
unpadded chunk count. -/
theorem C7_index_range (chunks : List (List Nat)) (t : Tree) (index : Int)
    (ht : newTree chunks = some t) :
    t.computeProof index = none ↔ (index < 0 ∨ (chunks.length : Int) ≤ index) := by
  obtain ⟨hc, _⟩ := newTree_inv ht
  rw [Tree.computeProof, hc]
  by_cases hg : index < 0 ∨ (chunks.length : Int) ≤ index
  · rw [if_pos hg]
    simp [hg]
  · rw [if_neg hg]
    simp [hg]

/-- C7 witness: a negative index errors, an in-range one does not. -/
theorem C7_index_range_witness :
    ((⟨[zeroChunk], merkleize [zeroChunk]⟩ : Tree).computeProof (-1) = none ↔
      ((-1 : Int) < 0 ∨ (([zeroChunk] : List (List Nat)).length : Int) ≤ -1)) :=
  C7_index_range [zeroChunk] _ (-1) (by rfl)

/-- C10: the verifier binds the index only modulo `2 ^ proof.length`:
indices agreeing on their low bits verify identically, and an empty proof
verifies any index exactly when the value equals the root. -/
theorem C10_index_mod (t : Tree) (v : List Nat) (proof : List (List Nat)) (i j : Nat)
    (hij : i % 2 ^ proof.length = j % 2 ^ proof.length) :
    t.verifyProof i v proof = t.verifyProof j v proof ∧
      (∀ k : Nat, (t.verifyProof k v [] = true ↔ v = t.root)) := by
  constructor
  · rw [Tree.verifyProof, Tree.verifyProof, goAux_eq_solidity, goAux_eq_solidity,
      Nat.shiftRight_zero, Nat.shiftRight_zero, solidityReplay_congr proof i j v hij]
  · intro k
    rw [Tree.verifyProof, verifyGoAux]
    simp

/-- C10 witness: indices 1 and 3 agree modulo 2 on a length-1 proof. -/
theorem C10_index_mod_witness :
    (⟨[], zeroChunk⟩ : Tree).verifyProof 1 zeroChunk [zeroChunk] =
        (⟨[], zeroChunk⟩ : Tree).verifyProof 3 zeroChunk [zeroChunk] ∧
      (∀ k : Nat, ((⟨[], zeroChunk⟩ : Tree).verifyProof k zeroChunk [] = true ↔
        zeroChunk = (⟨[], zeroChunk⟩ : Tree).root)) :=
  C10_index_mod ⟨[], zeroChunk⟩ zeroChunk [zeroChunk] 1 3 (by decide)

/-- C9 counterexample: the claim "a proof shorter than the tree depth always
verifies to false" fails: in the depth-2 tree over
`[z, H(z‖z), z, z]` the crafted single-element proof `[H(z‖H(z‖z))]`
verifies index 1 with its true leaf value. -/
theorem C9_counterexample :
    ∃ t : Tree,
      newTree [zeroChunk, sha256 (zeroChunk ++ zeroChunk), zeroChunk, zeroChunk] = some t ∧
      Nat.size ([zeroChunk, sha256 (zeroChunk ++ zeroChunk), zeroChunk, zeroChunk].length - 1) = 2 ∧
      [sha256 (zeroChunk ++ sha256 (zeroChunk ++ zeroChunk))].length < 2 ∧
      (∀ p ∈ [sha256 (zeroChunk ++ sha256 (zeroChunk ++ zeroChunk))], p.length = 32) ∧
      t.verifyProof 1 (sha256 (zeroChunk ++ zeroChunk))
        [sha256 (zeroChunk ++ sha256 (zeroChunk ++ zeroChunk))] = true := by
  refine ⟨⟨[zeroChunk, sha256 (zeroChunk ++ zeroChunk), zeroChunk, zeroChunk],
      merkleize [zeroChunk, sha256 (zeroChunk ++ zeroChunk), zeroChunk, zeroChunk]⟩,
    by rw [newTree, if_pos (by decide)], by simp [size_three], by decide, by decide, ?_⟩
  have hpad : padToPow2 [zeroChunk, sha256 (zeroChunk ++ zeroChunk), zeroChunk, zeroChunk] =
      [zeroChunk, sha256 (zeroChunk ++ zeroChunk), zeroChunk, zeroChunk] := by
    simp [padToPow2, nextPowerOfTwo, size_three]
  have hroot : merkleize [zeroChunk, sha256 (zeroChunk ++ zeroChunk), zeroChunk, zeroChunk] =
      hashPair (hashPair zeroChunk (sha256 (zeroChunk ++ zeroChunk)))
        (hashPair zeroChunk zeroChunk) := by
    rw [merkleize, if_neg (by decide), hpad,
      merkleizeLayers_step (by decide), hashLayer, hashLayer,
      merkleizeLayers_step (by decide), hashLayer,
      merkleizeLayers_base (by decide)]
    rfl
  rw [Tree.verifyProof]
  rw [show (⟨[zeroChunk, sha256 (zeroChunk ++ zeroChunk), zeroChunk, zeroChunk],
      merkleize [zeroChunk, sha256 (zeroChunk ++ zeroChunk), zeroChunk, zeroChunk]⟩ : Tree).root =
      merkleize [zeroChunk, sha256 (zeroChunk ++ zeroChunk), zeroChunk, zeroChunk] from rfl,
    hroot]
  decide

/-- C9 (amended): `VerifyProof` on a proof shorter than the tree depth
terminates and deterministically returns the boolean comparison of the
replayed digest with the `merkleize` root; it is not guaranteed to be
false. -/
theorem C9_short_proof (chunks : List (List Nat)) (t : Tree) (i : Nat) (proof : List (List Nat))
    (ht : newTree chunks = some t) (hd : 1 ≤ Nat.size (chunks.length - 1))
    (hi : i < chunks.length)
    (hshort : proof.length < Nat.size (chunks.length - 1)) :
    t.verifyProof i (chunks.getD i []) proof = true ↔
      verifyGoAux i (chunks.getD i []) 0 proof = merkleize chunks := by
  obtain ⟨_, hr⟩ := newTree_inv ht
  rw [Tree.verifyProof, hr]
  simp

/-- C9 witness: a two-leaf tree with the empty proof at index 0. -/
theorem C9_short_proof_witness :
    (⟨[zeroChunk, zeroChunk], merkleize [zeroChunk, zeroChunk]⟩ : Tree).verifyProof 0
        ([zeroChunk, zeroChunk].getD 0 []) [] = true ↔
      verifyGoAux 0 ([zeroChunk, zeroChunk].getD 0 []) 0 [] =
        merkleize [zeroChunk, zeroChunk] :=
  C9_short_proof [zeroChunk, zeroChunk] _ 0 [] (by rfl)
    (by simp [Nat.size_one]) (by decide) (by simp [Nat.size_one])

/-- C5 counterexample: the claim "every successfully parsed header
serializes to 5 chunks of 32 bytes each" fails: a root supplied as short
hex parses successfully but yields a 2-byte chunk. -/
theorem C5_counterexample :
    ∃ b : BlockHeader,
      fromAPIResponse ⟨"", "", "", "0xabcd", "", "", 0⟩ = Except.ok b ∧
      ¬∀ c ∈ serializeForMerkleization b, c.length = 32 :=
  ⟨⟨0, 0, List.replicate 32 0, [171, 205], List.replicate 32 0⟩, by rfl, by decide⟩

/-- C5 (amended): every successfully parsed header serializes to exactly 5
chunks in canonical order (0 slot, 1 proposer_index, 2 parent_root,
3 state_root, 4 body_root); the numeric chunks are 32 bytes holding the
value's 8 little-endian bytes followed by 24 zeros; root chunks are the
decoded bytes verbatim (32 bytes only when the supplied hex decoded to 32
bytes); an empty root string becomes 32 zero bytes, not an error. -/
theorem C5_codec (d : HeaderData) (b : BlockHeader) (h : fromAPIResponse d = .ok b) :
    (serializeForMerkleization b).length = 5 ∧
    (serializeForMerkleization b).getD 0 [] = uint64LEChunk b.slot ∧
    (serializeForMerkleization b).getD 1 [] = uint64LEChunk b.proposerIndex ∧
    (serializeForMerkleization b).getD 2 [] = b.parentRoot ∧
    (serializeForMerkleization b).getD 3 [] = b.stateRoot ∧
    (serializeForMerkleization b).getD 4 [] = b.bodyRoot ∧
    (uint64LEChunk b.slot).length = 32 ∧
    (∀ i, i < 8 → (uint64LEChunk b.slot).getD i 256 = (b.slot >>> (i * 8)) % 256) ∧
    (∀ i, 8 ≤ i → i < 32 → (uint64LEChunk b.slot).getD i 256 = 0) ∧
    (uint64LEChunk b.proposerIndex).length = 32 ∧
    (d.parentRoot = "" → b.parentRoot = List.replicate 32 0) ∧
    (d.stateRoot = "" → b.stateRoot = List.replicate 32 0) ∧
    (d.bodyRoot = "" → b.bodyRoot = List.replicate 32 0) := by
  obtain ⟨h1, h2, h3, h4, h5⟩ := fromAPIResponse_ok_inv h
  refine ⟨rfl, rfl, rfl, rfl, rfl, rfl, by simp [uint64LEChunk], ?_, ?_,
    by simp [uint64LEChunk], ?_, ?_, ?_⟩
  · intro i hi
    interval_cases i <;> rfl
  · intro i hi1 hi2
    interval_cases i <;> rfl
  · intro hpr
    rw [if_pos hpr] at h3
    exact (Option.some_inj.mp h3).symm
  · intro hsr
    rw [if_pos hsr] at h4
    exact (Option.some_inj.mp h4).symm
  · intro hbr
    rw [if_pos hbr] at h5
    exact (Option.some_inj.mp h5).symm

/-- C5 witness: a header parsed from empty root strings. -/
theorem C5_codec_witness :
    (serializeForMerkleization ⟨0, 0, List.replicate 32 0, List.replicate 32 0,
        List.replicate 32 0⟩).getD 2 [] =
      (⟨0, 0, List.replicate 32 0, List.replicate 32 0, List.replicate 32 0⟩ :
        BlockHeader).parentRoot :=
  (C5_codec ⟨"", "", "", "", "", "", 0⟩
    ⟨0, 0, List.replicate 32 0, List.replicate 32 0, List.replicate 32 0⟩
    (by rfl)).2.2.2.1

/-- C6 counterexample: the claim "the codec fails when a decoded root is
not exactly 32 bytes" fails: `FromAPIResponse` accepts a 1-byte root. -/
theorem C6_counterexample :
    ∃ b : BlockHeader,
      fromAPIResponse ⟨"", "", "0xab", "", "", "", 0⟩ = Except.ok b ∧
      b.parentRoot.length ≠ 32 :=
  ⟨⟨0, 0, [171], List.replicate 32 0, List.replicate 32 0⟩, by rfl, by decide⟩

/-- C6 (amended): `FromAPIResponse` succeeds exactly when each numeric
field is empty or parses as a decimal uint64 and each root is empty or
valid hex; on the first failing field (in canonical order) it returns the
error naming that field.  The decoded root length is NOT checked here; a
wrong-length root is only rejected later by `NewTree`. -/
theorem C6_failure (d : HeaderData) :
    ((∃ b, fromAPIResponse d = Except.ok b) ↔
      ((d.slot = "" ∨ (parseUint64 d.slot).isSome) ∧
       (d.proposerIndex = "" ∨ (parseUint64 d.proposerIndex).isSome) ∧
       (d.parentRoot = "" ∨ (hexDecode (trimHex d.parentRoot)).isSome) ∧
       (d.stateRoot = "" ∨ (hexDecode (trimHex d.stateRoot)).isSome) ∧
       (d.bodyRoot = "" ∨ (hexDecode (trimHex d.bodyRoot)).isSome))) ∧
    (d.slot ≠ "" → parseUint64 d.slot = none →
      fromAPIResponse d = Except.error "parsing slot") ∧
    ((d.slot = "" ∨ (parseUint64 d.slot).isSome) →
      d.proposerIndex ≠ "" → parseUint64 d.proposerIndex = none →
      fromAPIResponse d = Except.error "parsing proposer_index") ∧
    ((d.slot = "" ∨ (parseUint64 d.slot).isSome) →
     (d.proposerIndex = "" ∨ (parseUint64 d.proposerIndex).isSome) →
      d.parentRoot ≠ "" → hexDecode (trimHex d.parentRoot) = none →
      fromAPIResponse d = Except.error "decoding parent_root") ∧
    ((d.slot = "" ∨ (parseUint64 d.slot).isSome) →
     (d.proposerIndex = "" ∨ (parseUint64 d.proposerIndex).isSome) →
     (d.parentRoot = "" ∨ (hexDecode (trimHex d.parentRoot)).isSome) →
      d.stateRoot ≠ "" → hexDecode (trimHex d.stateRoot) = none →
      fromAPIResponse d = Except.error "decoding state_root") ∧
    ((d.slot = "" ∨ (parseUint64 d.slot).isSome) →
     (d.proposerIndex = "" ∨ (parseUint64 d.proposerIndex).isSome) →
     (d.parentRoot = "" ∨ (hexDecode (trimHex d.parentRoot)).isSome) →
     (d.stateRoot = "" ∨ (hexDecode (trimHex d.stateRoot)).isSome) →
      d.bodyRoot ≠ "" → hexDecode (trimHex d.bodyRoot) = none →
      fromAPIResponse d = Except.error "decoding body_root") := by
  refine ⟨⟨?_, ?_⟩, ?_, ?_, ?_, ?_, ?_⟩
  · rintro ⟨b, hb⟩
    obtain ⟨h1, h2, h3, h4, h5⟩ := fromAPIResponse_ok_inv hb
    exact ⟨ifEmpty_some_inv h1, ifEmpty_some_inv h2, ifEmpty_some_inv h3,
      ifEmpty_some_inv h4, ifEmpty_some_inv h5⟩
  · rintro ⟨ha, hb, hc, hd', he⟩
    obtain ⟨v1, hv1⟩ := ifEmpty_some (z := 0) ha
    obtain ⟨v2, hv2⟩ := ifEmpty_some (z := 0) hb
    obtain ⟨v3, hv3⟩ := ifEmpty_some (z := List.replicate 32 0) hc
    obtain ⟨v4, hv4⟩ := ifEmpty_some (z := List.replicate 32 0) hd'
    obtain ⟨v5, hv5⟩ := ifEmpty_some (z := List.replicate 32 0) he
    refine ⟨⟨v1, v2, v3, v4, v5⟩, ?_⟩
    unfold fromAPIResponse
    rw [hv1, hv2, hv3, hv4, hv5]
  · intro hne hnone
    unfold fromAPIResponse
    rw [if_neg hne, hnone]
  · intro ha hne hnone
    obtain ⟨v1, hv1⟩ := ifEmpty_some (z := 0) ha
    unfold fromAPIResponse
    rw [hv1, if_neg hne, hnone]
  · intro ha hb hne hnone
    obtain ⟨v1, hv1⟩ := ifEmpty_some (z := 0) ha
    obtain ⟨v2, hv2⟩ := ifEmpty_some (z := 0) hb
    unfold fromAPIResponse
    rw [hv1, hv2, if_neg hne, hnone]
  · intro ha hb hc hne hnone
    obtain ⟨v1, hv1⟩ := ifEmpty_some (z := 0) ha
    obtain ⟨v2, hv2⟩ := ifEmpty_some (z := 0) hb
    obtain ⟨v3, hv3⟩ := ifEmpty_some (z := List.replicate 32 0) hc
    unfold fromAPIResponse
    rw [hv1, hv2, hv3, if_neg hne, hnone]
  · intro ha hb hc hd' hne hnone
    obtain ⟨v1, hv1⟩ := ifEmpty_some (z := 0) ha
    obtain ⟨v2, hv2⟩ := ifEmpty_some (z := 0) hb
    obtain ⟨v3, hv3⟩ := ifEmpty_some (z := List.replicate 32 0) hc
    obtain ⟨v4, hv4⟩ := ifEmpty_some (z := List.replicate 32 0) hd'
    unfold fromAPIResponse
    rw [hv1, hv2, hv3, hv4, if_neg hne, hnone]

/-- C6 witness: an unparsable proposer_index fails with its field named. -/
theorem C6_failure_witness :
    fromAPIResponse ⟨"7", "9x", "", "", "", "", 0⟩ =
      Except.error "parsing proposer_index" :=
  (C6_failure ⟨"7", "9x", "", "", "", "", 0⟩).2.2.1
    (by right; rfl) (by decide) (by rfl)

/-- C8: Unknown field rejection: for a well-formed header input,
`GenerateHeaderProof` succeeds exactly when the field name is canonical,
and on success the bundle's field index is the canonical index. -/
theorem C8_unknown_field (d : HeaderData) (b : BlockHeader) (ts : Int) (name : String)
    (hok : fromAPIResponse d = .ok b)
    (h32 : ∀ c ∈ serializeForMerkleization b, c.length = 32) :
    ((∃ data, generateHeaderProof d name ts = .ok data) ↔ (fieldNames name).isSome) ∧
    (∀ data, generateHeaderProof d name ts = .ok data →
      some data.fieldIndex = fieldNames name) := by
  have hall : (serializeForMerkleization b).all (fun c => c.length == 32) = true := by
    rw [List.all_eq_true]
    intro c hc
    simpa using h32 c hc
  have htree : newTree (serializeForMerkleization b) =
      some ⟨serializeForMerkleization b, merkleize (serializeForMerkleization b)⟩ := by
    rw [newTree, if_pos hall]
  unfold generateHeaderProof
  rw [hok]
  cases hf : fieldNames name with
  | none => simp
  | some idx =>
    have hcp : (⟨serializeForMerkleization b,
        merkleize (serializeForMerkleization b)⟩ : Tree).computeProof (idx : Int) =
        some (computeProofAux (padToPow2 (serializeForMerkleization b)) idx) := by
      rw [Tree.computeProof]
      have hlt : idx < 5 := fieldNames_lt hf
      have hslen : (serializeForMerkleization b).length = 5 := rfl
      rw [if_neg (by rw [hslen]; omega)]
      simp
    dsimp only
    rw [htree]
    dsimp only
    rw [hcp]
    dsimp only
    constructor
    · simp
    · intro data hdata
      cases hdata
      rfl

/-- C8 witness: the body_root field resolves to index 4 on a well-formed
empty-root header, and an unknown name is rejected. -/
theorem C8_unknown_field_witness :
    ((∃ data, generateHeaderProof ⟨"", "", "", "", "", "", 0⟩ "body_root" 5 = .ok data) ↔
      (fieldNames "body_root").isSome) ∧
    (∀ data, generateHeaderProof ⟨"", "", "", "", "", "", 0⟩ "body_root" 5 = .ok data →
      some data.fieldIndex = fieldNames "body_root") :=
  C8_unknown_field ⟨"", "", "", "", "", "", 0⟩
    ⟨0, 0, List.replicate 32 0, List.replicate 32 0, List.replicate 32 0⟩ 5 "body_root"
    (by rfl) (by decide)

end Beacon
